import Mathlib

/-!
Shallow embedding of the string-matching module (`main.py`): a brute-force
matcher, Knuth-Morris-Pratt with its longest-prefix-suffix table, and a
Boyer-Moore-style matcher with bad-character and good-suffix tables.

Modelling conventions:
* Python strings become `List Char`.
* Python integers become `Int` (or `Nat` where the source value is
  provably non-negative, e.g. loop counters).
* A Python indexing expression that can raise `IndexError` at a reachable
  state is modelled with `Option` (`none` = the program aborts with an
  exception); an indexing expression whose index is non-negative and below
  the length at every reachable state is modelled with `List.getD`.
* Python's negative-index wrap-around (`s[-1]` is the last character) is
  modelled by `pyChar` / `pyWrap` below.
* `while` loops whose termination is not structural are given explicit
  fuel; `none` from fuel exhaustion coincides with "the program never
  returns a value".  Where a loop provably terminates, the chosen fuel is
  proved sufficient.
-/

/-- Python indexing semantics for a sequence of length `n`: index `e` with
`0 ≤ e < n` is used as is, `-n ≤ e < 0` wraps to `e + n`, anything else
raises `IndexError` (modelled as `none`). -/
def pyIdx (n : Nat) (e : Int) : Option Nat :=
  if 0 ≤ e ∧ e < (n : Int) then some e.toNat
  else if -(n : Int) ≤ e ∧ e < 0 then some (e + n).toNat
  else none

/-- Python character lookup `l[e]`, `none` on `IndexError`. -/
def pyChar (l : List Char) (e : Int) : Option Char :=
  (pyIdx l.length e).map fun t => l.getD t 'A'

/-- Total Python character lookup for call sites where the index provably
lies in `[-n, n)`: `e % n` is exactly Python's wrap-around on that range. -/
def pyWrap (l : List Char) (e : Int) : Char :=
  l.getD (e % (l.length : Int)).toNat 'A'

/-- Inner `while` of `brute_force_matcher`:
`while j < pattern_length and pattern[j] == text[i + j]: j += 1`.
The counter argument is `pattern_length - j`, so the guard `j < m` is the
counter being positive; returns the final `j`.  Both indices are in bounds
at every reachable call (`j < m` and `i + j < n` for `i ≤ n - m`). -/
def bfInner (text p : List Char) (i : Nat) : Nat → Nat → Nat
  | 0, j => j
  | k+1, j => if p.getD j 'A' = text.getD (i+j) 'A' then bfInner text p i k (j+1) else j

/-- Outer `for i in range(number_of_shifts)` of `brute_force_matcher`;
the first argument is the number of remaining iterations. -/
def bfOuter (text p : List Char) : Nat → Nat → Option Nat
  | 0, _ => none
  | c+1, i =>
    if bfInner text p i p.length 0 = p.length then some i else bfOuter text p c (i+1)

/-- Embedding of `brute_force_matcher(text, pattern)` from `main.py`.
`number_of_shifts = text_length - pattern_length + 1`; a non-positive value
gives an empty `range`, which is exactly Nat subtraction `n + 1 - m`. -/
def brute_force_matcher (text p : List Char) : Int :=
  match bfOuter text p (text.length + 1 - p.length) 0 with
  | some i => (i : Int)
  | none => -1

/-- The `while i < pattern_length` loop of `_longest_prefix_suffix`,
with explicit fuel.  All four indexing operations (`pattern[i]`,
`pattern[j]`, `lps_array[j - 1]`, `lps_array[i] = ...`) are in bounds at
every reachable state (`i < m` by the guard, `j < i` is a loop invariant),
so they are modelled with `getD` / `set`. -/
def lpsLoop (p : List Char) : Nat → Nat → Nat → List Nat → List Nat
  | 0, _, _, arr => arr
  | fuel+1, i, j, arr =>
    if i < p.length then
      if p.getD i 'A' = p.getD j 'A' then
        lpsLoop p fuel (i+1) (j+1) (arr.set i (j+1))
      else if j ≠ 0 then
        lpsLoop p fuel i (arr.getD (j-1) 0) arr
      else
        lpsLoop p fuel (i+1) j (arr.set i 0)
    else arr

/-- Embedding of `_longest_prefix_suffix(pattern)` from `main.py`.  The loop measure
`2*(m - i) + j` strictly decreases each iteration, so fuel `2*m` is enough
(proved below). -/
def _longest_prefix_suffix (p : List Char) : List Nat :=
  lpsLoop p (2 * p.length) 1 0 (List.replicate p.length 0)

/-- The `while i < text_length` loop of `KMP_matcher`, with explicit fuel.
`pattern[j]` and `lps_array[j - 1]` are modelled with `Option` lookups
because `pattern[j]` really can raise (empty pattern); `text[i]` is guarded
by `i < text_length` in the same branch.  After each branch the source
checks `j == pattern_length` and returns `i - j` on success. -/
def kmpLoop (text p : List Char) (lps : List Nat) : Nat → Nat → Nat → Option Int
  | 0, _, _ => none
  | fuel+1, i, j =>
    if i < text.length then
      match p[j]? with
      | none => none
      | some pj =>
        if pj = text.getD i 'A' then
          if j + 1 = p.length then some ((i : Int) + 1 - ((j : Int) + 1))
          else kmpLoop text p lps fuel (i+1) (j+1)
        else if j ≠ 0 then
          match lps[j-1]? with
          | none => none
          | some j2 =>
            if j2 = p.length then some ((i : Int) - (j2 : Int))
            else kmpLoop text p lps fuel i j2
        else
          if j = p.length then some ((i : Int) + 1 - (j : Int))
          else kmpLoop text p lps fuel (i+1) j
    else some (-1)

/-- Embedding of `KMP_matcher(text, pattern)` from `main.py`; `none` means the Python
program raises `IndexError` (it has no guard for an empty pattern).
The measure `2*(n - i) + j` strictly decreases each iteration, so fuel
`2*n + 1` is enough (proved below). -/
def KMP_matcher (text p : List Char) : Option Int :=
  kmpLoop text p (_longest_prefix_suffix p) (2 * text.length + 1) 0 0

/-- Embedding of `_bad_character_heuristic(pattern)` from `main.py`: the dictionary is
modelled as its lookup function `bad_char.get(c, -1)`; each loop step
overwrites the entry for `pattern[i]` with `i`. -/
def _bad_character_heuristic (p : List Char) : Char → Int :=
  (List.range p.length).foldl
    (fun f i c => if c = p.getD i 'A' then (i : Int) else f c) (fun _ => (-1 : Int))

/-- Inner `while j >= 0 and pattern[j] == pattern[j - pattern_length + i + 1]`
of `_good_suffix_heuristic`.  The argument is `j + 1` (so `0` encodes
`j = -1`); returns the final `j + 1`.  The left index `j` satisfies
`0 ≤ j ≤ i < m`; the right index lies in `(-m, m)` (proved below), where
Python wraps negative values, hence `pyWrap`. -/
def gsScan (p : List Char) (i : Nat) : Nat → Nat
  | 0 => 0
  | k+1 =>
    if p.getD k 'A' = pyWrap p ((k : Int) - p.length + i + 1)
    then gsScan p i k else k+1

/-- First pass of `_good_suffix_heuristic`: for `i` from `m-1` down to `0`,
`suffixes[m - i - 1] = i - j_final`, i.e. entry `t` is
`(i+1) - gsScan p i (i+1)` with `i = m - 1 - t`. -/
def gsSuffixes (p : List Char) : List Nat :=
  (List.range p.length).map fun t =>
    (p.length - t) - gsScan p (p.length - 1 - t) (p.length - t)

/-- Second pass of `_good_suffix_heuristic`:
`for i in range(m): borders[m - suffixes[i]] = i`, starting from
`[0] * (m + 1)`.  The written index `m - suffixes[i]` is non-negative in
the source because `suffixes[i] ≤ m`, so Nat subtraction is faithful. -/
def gsBorders (p : List Char) (suf : List Nat) : List Nat :=
  (List.range p.length).foldl
    (fun b i => b.set (p.length - suf.getD i 0) i)
    (List.replicate (p.length + 1) 0)

/-- Embedding of `_good_suffix_heuristic(pattern)` from `main.py`. -/
def _good_suffix_heuristic (p : List Char) : List Nat :=
  gsBorders p (gsSuffixes p)

/-- Inner right-to-left scan of `Boyer_Moore_matcher`:
`while j >= 0 and pattern[j] == text[s + j]: j -= 1`.  The argument is
`j + 1`; returns `some (j_final + 1)` (`some 0` = full match), or `none`
if the text access raises `IndexError` (possible because `s` can go
negative, below `-n`). -/
def bmScan (text p : List Char) (s : Int) : Nat → Option Nat
  | 0 => some 0
  | k+1 =>
    match pyChar text (s + k) with
    | none => none
    | some c => if p.getD k 'A' = c then bmScan text p s k else some (k+1)

/-- The `while s <= text_length - pattern_length` loop of
`Boyer_Moore_matcher`, with explicit fuel: the computed shift
`max(bc_shift, gs_shift)` can be non-positive, in which case the Python
loop never terminates, so no fuel is sufficient (`none` = no value is
ever returned).  On a mismatch at `j = k`,
`bc_shift = j - bad_char.get(text[s+j], -1)` and
`gs_shift = j - good_suffix[j+1]`. -/
def bmLoop (text p : List Char) (bc : Char → Int) (gs : List Nat) : Nat → Int → Option Int
  | 0, _ => none
  | fuel+1, s =>
    if s ≤ (text.length : Int) - (p.length : Int) then
      match bmScan text p s p.length with
      | none => none
      | some 0 => some s
      | some (k+1) =>
        match pyChar text (s + k) with
        | none => none
        | some c =>
          bmLoop text p bc gs fuel
            (s + max ((k : Int) - bc c) ((k : Int) - (gs.getD (k+1) 0 : Int)))
    else some (-1)

/-- Embedding of `Boyer_Moore_matcher(text, pattern)` from `main.py`: empty pattern is
guarded (`return 0`), otherwise the scan loop runs with fuel
`text_length + 2`, which is enough whenever the loop terminates at all:
the next alignment is a function of the current one alone, so a run longer
than the `n - m + 2` conceivable alignments in `[0, n - m]` plus one has
repeated an alignment and loops forever. -/
def Boyer_Moore_matcher (text p : List Char) : Option Int :=
  if p.length = 0 then some 0
  else bmLoop text p (_bad_character_heuristic p) (_good_suffix_heuristic p)
    (text.length + 2) 0

/-- Spec-side table (for comparison with the code): the length of the
longest proper prefix of `pattern[0..=i]` that is also a suffix of it. -/
def spec_lps (p : List Char) (i : Nat) : Nat :=
  Nat.findGreatest (fun k => List.take k p = List.drop (i+1-k) (List.take (i+1) p)) i

/-- Spec-side suffix table (for comparison with the code): the length of
the longest suffix of `pattern[0..=i]` that equals a suffix of the full
pattern. -/
def spec_gs_suffix (p : List Char) (i : Nat) : Nat :=
  Nat.findGreatest
    (fun k => List.drop (i+1-k) (List.take (i+1) p) = List.drop (p.length - k) p) (i+1)

/-- Spec-side good-suffix table: the borders array obtained from the
spec's semantic `suffixes` table (`spec_gs_suffix`) by the second pass. -/
def spec_good_suffix (p : List Char) : List Nat :=
  gsBorders p ((List.range p.length).map fun t => spec_gs_suffix p (p.length - 1 - t))

/-- The comparison performed at step `t` of the first-pass scan of
`_good_suffix_heuristic` at end position `i`: `pattern[j]` against
`pattern[j - m + i + 1]` with `j = i - t` (Python wrap-around on the
right). -/
def gs_cmp (p : List Char) (i t : Nat) : Prop :=
  p.getD (i - t) 'A' = pyWrap p (((i : Int) - t) - p.length + i + 1)

instance (p : List Char) (i t : Nat) : Decidable (gs_cmp p i t) := by
  unfold gs_cmp; infer_instance

/-- Declarative value of the first-pass scan at end position `i`: the
greatest `k ≤ i + 1` whose first `k` comparisons all succeed. -/
def gs_run (p : List Char) (i : Nat) : Nat :=
  Nat.findGreatest (fun k => ∀ t, t < k → gs_cmp p i t) (i+1)

/-- Index pairs `(j, j - m + i + 1)` of every pattern access performed by
the first-pass scan of `_good_suffix_heuristic` at end position `i`
(the condition accesses both sides whenever `j ≥ 0`). -/
def gsScanAcc (p : List Char) (i : Nat) : Nat → List (Int × Int)
  | 0 => []
  | k+1 =>
    ((k : Int), (k : Int) - p.length + i + 1) ::
      (if p.getD k 'A' = pyWrap p ((k : Int) - p.length + i + 1)
       then gsScanAcc p i k else [])

/-- All pattern-access index pairs of the first pass of
`_good_suffix_heuristic`, across `i = m-1` down to `0`. -/
def gsAccesses (p : List Char) : List (Int × Int) :=
  List.flatten ((List.range p.length).map fun t =>
    gsScanAcc p (p.length - 1 - t) (p.length - t))


/-! ### Generic helper: a Boyer-Moore alignment the loop never leaves -/

/-- If one unfolding of the Boyer-Moore loop at alignment `s` comes back to
the same alignment, no amount of fuel produces a result: the Python loop
runs forever. -/
lemma bmLoop_stuck (text p : List Char) (bc : Char → Int) (gs : List Nat) (s : Int)
    (h : ∀ fuel, bmLoop text p bc gs (fuel+1) s = bmLoop text p bc gs fuel s) :
    ∀ fuel, bmLoop text p bc gs fuel s = none := by
  intro fuel
  induction fuel with
  | zero => rfl
  | succ k ih => rw [h k]; exact ih

/-- The scan of `Boyer_Moore_matcher ['b','b'] ['a','b']` is stuck at
alignment `0`: the mismatch there yields `bc_shift = -1`, `gs_shift = 0`. -/
lemma bm_bb_ab_stuck :
    ∀ fuel, bmLoop ['b','b'] ['a','b'] (_bad_character_heuristic ['a','b'])
      (_good_suffix_heuristic ['a','b']) fuel 0 = none :=
  bmLoop_stuck _ _ _ _ _ (fun _ => rfl)

/-- The scan of `Boyer_Moore_matcher ['b','b','a','b'] ['a','b']` is stuck at
alignment `0` even though the pattern occurs at offset `2`. -/
lemma bm_bbab_ab_stuck :
    ∀ fuel, bmLoop ['b','b','a','b'] ['a','b'] (_bad_character_heuristic ['a','b'])
      (_good_suffix_heuristic ['a','b']) fuel 0 = none :=
  bmLoop_stuck _ _ _ _ _ (fun _ => rfl)

/-- C1: FALSIFIED.  For text `"bb"` and pattern `"ab"`, the first (and only)
alignment `s = 0` mismatches at `j = 0` with `bc_shift = 0 - bad_char['b'] = -1`
and `gs_shift = 0 - good_suffix[1] = 0`, so the computed advance
`max(bc_shift, gs_shift)` is `0`, not `≥ 1`: the alignment does not increase
and the scan loop never terminates (no fuel yields a result). -/
theorem C1_bm_shift_not_positive :
    max ((0 : Int) - _bad_character_heuristic ['a','b'] 'b')
        ((0 : Int) - ((_good_suffix_heuristic ['a','b']).getD 1 0 : Int)) = 0
    ∧ ∀ fuel, bmLoop ['b','b'] ['a','b'] (_bad_character_heuristic ['a','b'])
        (_good_suffix_heuristic ['a','b']) fuel 0 = none :=
  ⟨by decide, bm_bb_ab_stuck⟩

/-- C2: FALSIFIED for KMP.  `KMP_matcher` has no empty-pattern guard: on
`text = "a", pattern = ""` it evaluates `pattern[0]` and raises `IndexError`
(`none`), and on `text = "", pattern = ""` it returns `-1`, not `0`.  The
other two matchers do return `0` on an empty pattern. -/
theorem C2_empty_pattern :
    KMP_matcher ['a'] [] = none
    ∧ KMP_matcher [] [] = some (-1)
    ∧ brute_force_matcher ['a'] [] = 0
    ∧ brute_force_matcher [] [] = 0
    ∧ Boyer_Moore_matcher ['a'] [] = some 0
    ∧ Boyer_Moore_matcher [] [] = some 0 := by
  refine ⟨rfl, rfl, rfl, rfl, rfl, rfl⟩

/-- C3: FALSIFIED.  On `text = "", pattern = ""` the three matchers do not
agree: brute force and Boyer-Moore return `0`, KMP returns `-1`. -/
theorem C3_matchers_disagree :
    brute_force_matcher [] [] = 0
    ∧ KMP_matcher [] [] = some (-1)
    ∧ Boyer_Moore_matcher [] [] = some 0 := by
  refine ⟨rfl, rfl, rfl⟩

/-- C4: FALSIFIED for Boyer-Moore.  On `text = "accacca", pattern = "cca"`
the pattern occurs at offsets `1` and `4`; brute force returns the smallest
offset `1`, but Boyer-Moore's good-suffix shift overshoots the first
occurrence and it returns `4`. -/
theorem C4_bm_not_leftmost :
    brute_force_matcher ['a','c','c','a','c','c','a'] ['c','c','a'] = 1
    ∧ ((['a','c','c','a','c','c','a'] : List Char).drop 1).take 3 = ['c','c','a']
    ∧ Boyer_Moore_matcher ['a','c','c','a','c','c','a'] ['c','c','a'] = some 4 := by
  refine ⟨rfl, rfl, by decide⟩

/-- C5, counterexample.  On `text = "caaa", pattern = "aaca"` the computed
shift is negative twice, the alignment reaches `s = -2`, and Python's
negative-index wrap-around makes the right-to-left scan "match" there:
`Boyer_Moore_matcher` returns the offset `-2`, which is different from `-1`
but is not a valid offset (`0 ≤ i` fails). -/
theorem C5_bm_returns_negative_offset :
    Boyer_Moore_matcher ['c','a','a','a'] ['a','a','c','a'] = some (-2)
    ∧ ¬ (0 : Int) ≤ -2 := by
  refine ⟨by decide, by decide⟩

/-- C6, counterexample.  For pattern `"aab"` the first pass of
`_good_suffix_heuristic` compares `pattern[j]` with `pattern[j - m + i + 1]`
(wrapping at negative indices), which is not the spec's semantic `suffixes`
table: the code produces `suffixes = [3,1,1]` and borders `[0,0,2,0]`, while
the spec's table (`suffixes[m-i-1]` = longest suffix of `pattern[0..=i]`
matching a suffix of the pattern, i.e. `[3,0,0]`) gives `[0,0,0,2]`. -/
theorem C6_gs_table_differs_from_spec :
    _good_suffix_heuristic ['a','a','b'] = [0, 0, 2, 0]
    ∧ spec_good_suffix ['a','a','b'] = [0, 0, 0, 2]
    ∧ _good_suffix_heuristic ['a','a','b'] ≠ spec_good_suffix ['a','a','b'] := by
  refine ⟨by decide, by decide, by decide⟩

/-- C7, counterexample.  For pattern `"ab"`, the first pass of
`_good_suffix_heuristic` at `i = 0`, `j = 0` compares `pattern[0]` with
`pattern[j - m + i + 1] = pattern[-1]`: the right index is negative, so the
accesses are not all within `0 ≤ index < m`. -/
theorem C7_gs_access_negative_index :
    ((0 : Int), (-1 : Int)) ∈ gsAccesses ['a','b']
    ∧ ¬ (0 : Int) ≤ -1 := by
  refine ⟨by decide, by decide⟩

/-! ### Border theory: proper prefixes that are also suffixes -/

/-- The prefix of `p` of length `l` is a proper border of `p.take L`:
`l < L` and that prefix is also a suffix of `p.take L`. -/
def isBord (p : List Char) (L l : Nat) : Prop :=
  l < L ∧ List.take l p = List.drop (L - l) (List.take L p)

lemma isBord_zero (p : List Char) {L : Nat} (hL : 0 < L) : isBord p L 0 := by
  refine ⟨hL, ?_⟩
  rw [List.take_zero, List.drop_eq_nil_of_le (by rw [List.length_take]; omega)]

lemma isBord_trans {p : List Char} {L l l2 : Nat}
    (h1 : isBord p L l) (h2 : isBord p l l2) : isBord p L l2 := by
  obtain ⟨hl, he⟩ := h1
  obtain ⟨hl2, he2⟩ := h2
  refine ⟨lt_trans hl2 hl, ?_⟩
  rw [he2, he, List.drop_drop]
  congr 1
  omega

lemma isBord_nest {p : List Char} {L a b : Nat}
    (ha : isBord p L a) (hb : isBord p L b) (hab : a < b) : isBord p b a := by
  refine ⟨hab, ?_⟩
  rw [hb.2, List.drop_drop, ha.2]
  have hbL : b < L := hb.1
  congr 1
  omega

lemma take_getD {p : List Char} {L : Nat} (h : L < p.length) :
    p.take (L+1) = p.take L ++ [p.getD L 'A'] := by
  rw [List.take_succ, List.getElem?_eq_getElem h, List.getD_eq_getElem _ _ h]
  rfl

lemma isBord_step_up {p : List Char} {L l : Nat} (h : isBord p L l) (hL : L < p.length)
    (he : p.getD l 'A' = p.getD L 'A') : isBord p (L+1) (l+1) := by
  obtain ⟨hl, hb⟩ := h
  have hlp : l < p.length := by omega
  refine ⟨by omega, ?_⟩
  rw [take_getD hlp, take_getD hL, show L + 1 - (l+1) = L - l by omega,
    List.drop_append_of_le_length (by rw [List.length_take]; omega), hb, he]

lemma isBord_step_down {p : List Char} {L l : Nat} (h : isBord p (L+1) (l+1))
    (hL : L < p.length) : isBord p L l ∧ p.getD l 'A' = p.getD L 'A' := by
  obtain ⟨hl, hb⟩ := h
  have hlL : l < L := by omega
  have hlp : l < p.length := by omega
  rw [take_getD hlp, take_getD hL, show L + 1 - (l+1) = L - l by omega,
    List.drop_append_of_le_length (by rw [List.length_take]; omega)] at hb
  have hlen : (List.take l p).length = (List.drop (L - l) (List.take L p)).length := by
    rw [List.length_take, List.length_drop, List.length_take]
    omega
  obtain ⟨h1, h2⟩ := List.append_inj hb hlen
  exact ⟨⟨hlL, h1⟩, by injection h2⟩

lemma spec_lps_le (p : List Char) (i : Nat) : spec_lps p i ≤ i :=
  Nat.findGreatest_le i

lemma spec_lps_isBord (p : List Char) (i : Nat) : isBord p (i+1) (spec_lps p i) := by
  have h0 : List.take 0 p = List.drop (i+1-0) (List.take (i+1) p) := by
    rw [List.take_zero, List.drop_eq_nil_of_le (by rw [List.length_take]; omega)]
  refine ⟨Nat.lt_succ_of_le (spec_lps_le p i), ?_⟩
  unfold spec_lps
  exact @Nat.findGreatest_spec 0
    (fun k => List.take k p = List.drop (i+1-k) (List.take (i+1) p)) _ i
    (Nat.zero_le i) h0

lemma le_spec_lps {p : List Char} {i l : Nat} (h : isBord p (i+1) l) : l ≤ spec_lps p i := by
  have hli : l ≤ i := by have := h.1; omega
  unfold spec_lps
  exact @Nat.le_findGreatest l
    (fun k => List.take k p = List.drop (i+1-k) (List.take (i+1) p)) _ i hli h.2

lemma getD_set_eq_if {arr : List Nat} {i t v : Nat} (h : t < arr.length) :
    (arr.set i v).getD t 0 = if i = t then v else arr.getD t 0 := by
  rw [List.getD_eq_getElem _ _ (by simpa using h), List.getElem_set]
  split
  · rfl
  · rw [List.getD_eq_getElem _ _ h]

/-- Main invariant proof for the `_longest_prefix_suffix` loop: starting
from a state where all entries below `i` agree with `spec_lps`, `j` is a
border length of `p.take i`, and every proper border of `p.take (i+1)` has
length at most `j + 1`, the loop fills the whole array with `spec_lps`
values (given fuel above the loop measure `2*(m - i) + j`). -/
lemma lpsLoop_correct (p : List Char) : ∀ fuel i j arr,
    1 ≤ i → i ≤ p.length → j < i →
    arr.length = p.length →
    (∀ t, t < i → arr.getD t 0 = spec_lps p t) →
    isBord p i j →
    (i < p.length → ∀ l, isBord p (i+1) l → l ≤ j + 1) →
    2 * (p.length - i) + j < fuel →
    (lpsLoop p fuel i j arr).length = p.length
      ∧ ∀ t, t < p.length → (lpsLoop p fuel i j arr).getD t 0 = spec_lps p t := by
  intro fuel
  induction fuel with
  | zero => intro i j arr _ _ _ _ _ _ _ hf; omega
  | succ fuel ih =>
    intro i j arr hi1 him hji hlen hent hB hC hf
    by_cases hi : i < p.length
    · simp only [lpsLoop, if_pos hi]
      by_cases hc : p.getD i 'A' = p.getD j 'A'
      · -- match branch: lps[i] = j + 1
        simp only [if_pos hc]
        have hstep : isBord p (i+1) (j+1) := isBord_step_up hB hi hc.symm
        have hs : spec_lps p i = j + 1 :=
          le_antisymm (hC hi _ (spec_lps_isBord p i)) (le_spec_lps hstep)
        refine ih (i+1) (j+1) (arr.set i (j+1)) (by omega) hi (by omega)
          (by simpa using hlen) ?_ hstep ?_ (by omega)
        · intro t ht
          rw [getD_set_eq_if (by omega)]
          rcases Nat.lt_or_ge t i with h' | h'
          · rw [if_neg (by omega), hent t h']
          · have : t = i := by omega
            subst this
            rw [if_pos rfl, hs]
        · intro hi2 l hbl
          match l with
          | 0 => omega
          | l'+1 =>
            obtain ⟨hb', _⟩ := isBord_step_down hbl hi2
            have := le_spec_lps hb'
            omega
      · simp only [if_neg hc]
        by_cases hj : j = 0
        · -- mismatch with j = 0: lps[i] = 0
          subst hj
          rw [if_neg (by simp)]
          have hs : spec_lps p i = 0 := by
            rcases h' : spec_lps p i with _ | k
            · rfl
            · exfalso
              have hbs : isBord p (i+1) (k+1) := h' ▸ spec_lps_isBord p i
              obtain ⟨_, hch⟩ := isBord_step_down hbs hi
              have hle : k + 1 ≤ 0 + 1 := hC hi _ hbs
              have hk : k = 0 := by omega
              subst hk
              exact hc (hch.symm)
          refine ih (i+1) 0 (arr.set i 0) (by omega) hi (by omega)
            (by simpa using hlen) ?_ (isBord_zero p (by omega)) ?_ (by omega)
          · intro t ht
            rw [getD_set_eq_if (by omega)]
            rcases Nat.lt_or_ge t i with h' | h'
            · rw [if_neg (by omega), hent t h']
            · have : t = i := by omega
              subst this
              rw [if_pos rfl, hs]
          · intro hi2 l hbl
            match l with
            | 0 => omega
            | l'+1 =>
              obtain ⟨hb', _⟩ := isBord_step_down hbl hi2
              have := le_spec_lps hb'
              omega
        · -- mismatch with j ≠ 0: fall back to lps[j-1]
          rw [if_pos hj]
          have hj2v : arr.getD (j-1) 0 = spec_lps p (j-1) := hent (j-1) (by omega)
          have hjj : j - 1 + 1 = j := by omega
          have hbj : isBord p j (spec_lps p (j-1)) := by
            have := spec_lps_isBord p (j-1)
            rwa [hjj] at this
          have hb2 : isBord p i (arr.getD (j-1) 0) := by
            rw [hj2v]
            exact isBord_trans hB hbj
          have hlt : arr.getD (j-1) 0 < j := by
            have := spec_lps_le p (j-1)
            omega
          refine ih i (arr.getD (j-1) 0) arr hi1 him (by omega) hlen hent hb2 ?_ (by omega)
          intro _ l hbl
          match l with
          | 0 => omega
          | l'+1 =>
            obtain ⟨hb', hch⟩ := isBord_step_down hbl hi
            have hne : l' ≠ j := by
              intro he
              subst he
              exact hc hch.symm
            have hlej : l' + 1 ≤ j + 1 := hC hi _ hbl
            have hbj' : isBord p j l' := isBord_nest hb' hB (by omega)
            have : l' ≤ spec_lps p (j-1) := le_spec_lps (hjj ▸ hbj')
            omega
    · -- i = p.length: loop exits, array is fully specified
      simp only [lpsLoop, if_neg hi]
      exact ⟨hlen, fun t ht => hent t (by omega)⟩

/-- The LPS table computed by the source equals the spec's table pointwise. -/
lemma lps_correct (p : List Char) :
    _longest_prefix_suffix p = (List.range p.length).map (spec_lps p) := by
  by_cases hmz : p.length = 0
  · have hp : p = [] := List.length_eq_zero.mp hmz
    subst hp
    rfl
  · have hmpos : 1 ≤ p.length := by omega
    have hEnt : ∀ t, t < 1 → (List.replicate p.length 0).getD t 0 = spec_lps p t := by
      intro t ht
      have ht0 : t = 0 := by omega
      subst ht0
      rw [List.getD_eq_getElem _ _ (by simpa using hmpos), List.getElem_replicate]
      rfl
    have hCc : 1 < p.length → ∀ l, isBord p 2 l → l ≤ 1 := by
      intro _ l hbl
      have := hbl.1
      omega
    have h := lpsLoop_correct p (2 * p.length) 1 0 (List.replicate p.length 0)
      le_rfl hmpos Nat.one_pos (by simp) hEnt (isBord_zero p Nat.one_pos) hCc (by omega)
    unfold _longest_prefix_suffix
    refine List.ext_getElem ?_ ?_
    · rw [h.1]
      simp
    · intro n h1 h2
      have hn : n < p.length := by rw [h.1] at h1; exact h1
      rw [← List.getD_eq_getElem _ 0 h1, h.2 n hn, List.getElem_map, List.getElem_range]

lemma lps_length (p : List Char) : (_longest_prefix_suffix p).length = p.length := by
  rw [lps_correct]; simp

lemma lps_getD {p : List Char} {t : Nat} (h : t < p.length) :
    (_longest_prefix_suffix p).getD t 0 = spec_lps p t := by
  rw [lps_correct, List.getD_eq_getElem _ _ (by simpa using h), List.getElem_map,
    List.getElem_range]

lemma lps_get? {p : List Char} {t : Nat} (h : t < p.length) :
    (_longest_prefix_suffix p)[t]? = some (spec_lps p t) := by
  rw [List.getElem?_eq_getElem (by rw [lps_length]; exact h)]
  rw [← List.getD_eq_getElem _ 0 (by rw [lps_length]; exact h), lps_getD h]

/-- C8: CONFIRMED.  `_longest_prefix_suffix` returns the table of length
`m` whose entry `i` is the length of the longest proper prefix of
`pattern[0..=i]` that is also a suffix of it (`spec_lps`, stated with
`Nat.findGreatest` over the border predicate); every entry is at most its
index, the table for `"aabaabaaa"` is `[0,1,0,1,2,3,4,5,2]`, and the empty
pattern yields the empty table. -/
theorem C8_lps_table :
    (∀ p : List Char, _longest_prefix_suffix p = (List.range p.length).map (spec_lps p))
    ∧ (∀ (p : List Char) (t : Nat), (_longest_prefix_suffix p).getD t 0 ≤ t)
    ∧ _longest_prefix_suffix ['a','a','b','a','a','b','a','a','a'] = [0,1,0,1,2,3,4,5,2]
    ∧ _longest_prefix_suffix ([] : List Char) = [] := by
  refine ⟨lps_correct, ?_, by decide, rfl⟩
  intro p t
  by_cases h : t < p.length
  · rw [lps_getD h]
    exact spec_lps_le p t
  · rw [List.getD_eq_default _ _ (by rw [lps_length]; omega)]
    exact Nat.zero_le t

/-! ### KMP: partial-match invariant, soundness and termination -/

/-- Invariant of the KMP scan: the first `j` pattern characters match the
`j` text characters ending at position `i`. -/
def kmpInv (text p : List Char) (i j : Nat) : Prop :=
  j ≤ i ∧ i ≤ text.length ∧ List.take j p = List.drop (i - j) (List.take i text)

lemma kmpInv_zero (text p : List Char) {i : Nat} (h : i ≤ text.length) :
    kmpInv text p i 0 := by
  refine ⟨Nat.zero_le i, h, ?_⟩
  rw [List.take_zero, List.drop_eq_nil_of_le (by rw [List.length_take]; omega)]

lemma kmpInv_step {text p : List Char} {i j : Nat} (h : kmpInv text p i j)
    (hj : j < p.length) (hi : i < text.length)
    (he : p.getD j 'A' = text.getD i 'A') : kmpInv text p (i+1) (j+1) := by
  obtain ⟨hji, hin, hb⟩ := h
  refine ⟨by omega, by omega, ?_⟩
  rw [take_getD hj, take_getD hi, show i + 1 - (j+1) = i - j by omega,
    List.drop_append_of_le_length (by rw [List.length_take]; omega), hb, he]

lemma kmpInv_fb {text p : List Char} {i j j2 : Nat} (h : kmpInv text p i j)
    (hb : isBord p j j2) : kmpInv text p i j2 := by
  obtain ⟨hji, hin, hmm⟩ := h
  obtain ⟨hlt, hb2⟩ := hb
  refine ⟨by omega, hin, ?_⟩
  rw [hb2, hmm, List.drop_drop]
  congr 1
  omega

lemma kmpInv_slice {text p : List Char} {i : Nat} (h : kmpInv text p i p.length) :
    (text.drop (i - p.length)).take p.length = p := by
  obtain ⟨hji, hin, hb⟩ := h
  rw [List.take_length, List.drop_take] at hb
  rw [show i - (i - p.length) = p.length from by omega] at hb
  exact hb.symm

/-- Soundness of the KMP loop: whatever value it returns is `-1` or a
valid match offset. -/
lemma kmpLoop_sound (text p : List Char) : ∀ fuel i j v,
    kmpInv text p i j →
    kmpLoop text p (_longest_prefix_suffix p) fuel i j = some v →
    v = -1 ∨ (0 ≤ v ∧ v ≤ (text.length : Int) - (p.length : Int)
      ∧ (text.drop v.toNat).take p.length = p) := by
  intro fuel
  induction fuel with
  | zero =>
    intro i j v _ hr
    exact absurd hr (by simp [kmpLoop])
  | succ fuel ih =>
    intro i j v hInv hr
    simp only [kmpLoop] at hr
    by_cases hi : i < text.length
    · rw [if_pos hi] at hr
      rcases hq : p[j]? with _ | pj
      · rw [hq] at hr
        exact absurd hr (by simp)
      · rw [hq] at hr
        obtain ⟨hjm, hpj⟩ := List.getElem?_eq_some_iff.mp hq
        have hpjD : p.getD j 'A' = pj := by rw [List.getD_eq_getElem _ _ hjm, hpj]
        dsimp only at hr
        by_cases hc : pj = text.getD i 'A'
        · rw [if_pos hc] at hr
          have hInv2 : kmpInv text p (i+1) (j+1) :=
            kmpInv_step hInv hjm hi (by rw [hpjD, hc])
          by_cases hj1 : j + 1 = p.length
          · rw [if_pos hj1] at hr
            injection hr with hr
            right
            have hji : j + 1 ≤ i + 1 := by have := hInv2.1; omega
            have hvv : v = ((i : Int) + 1) - ((j : Int) + 1) := hr.symm
            have hvt : v.toNat = (i + 1) - p.length := by omega
            refine ⟨by omega, by omega, ?_⟩
            rw [hvt]
            exact @kmpInv_slice text p (i+1) (by rw [← hj1]; exact hInv2)
          · rw [if_neg hj1] at hr
            exact ih (i+1) (j+1) v hInv2 hr
        · rw [if_neg hc] at hr
          by_cases hj0 : j = 0
          · subst hj0
            rw [if_neg (by simp)] at hr
            rw [if_neg (by omega)] at hr
            exact ih (i+1) 0 v (kmpInv_zero text p (by omega)) hr
          · rw [if_pos hj0] at hr
            rw [lps_get? (show j - 1 < p.length by omega)] at hr
            dsimp only at hr
            have hle := spec_lps_le p (j-1)
            rw [if_neg (by omega)] at hr
            have hbord : isBord p j (spec_lps p (j-1)) := by
              have := spec_lps_isBord p (j-1)
              rwa [show j - 1 + 1 = j from by omega] at this
            exact ih i (spec_lps p (j-1)) v (kmpInv_fb hInv hbord) hr
    · rw [if_neg hi] at hr
      injection hr with hr
      left
      omega

/-- Termination of the KMP loop for a non-empty pattern: with fuel above
the measure `2*(n - i) + j`, the loop always produces a value (so in the
source no index operation ever fails and the loop exits). -/
lemma kmpLoop_total (text p : List Char) : ∀ fuel i j,
    j ≤ i → i ≤ text.length → j < p.length →
    2 * (text.length - i) + j < fuel →
    (kmpLoop text p (_longest_prefix_suffix p) fuel i j).isSome = true := by
  intro fuel
  induction fuel with
  | zero =>
    intro i j _ _ _ hf
    omega
  | succ fuel ih =>
    intro i j hji hin hjm hf
    simp only [kmpLoop]
    by_cases hi : i < text.length
    · have hq : p[j]? = some (p.getD j 'A') := by
        rw [List.getElem?_eq_getElem hjm, List.getD_eq_getElem _ _ hjm]
      rw [if_pos hi, hq]
      dsimp only
      by_cases hc : p.getD j 'A' = text.getD i 'A'
      · rw [if_pos hc]
        by_cases hj1 : j + 1 = p.length
        · rw [if_pos hj1]
          rfl
        · rw [if_neg hj1]
          exact ih (i+1) (j+1) (by omega) (by omega) (by omega) (by omega)
      · rw [if_neg hc]
        by_cases hj0 : j = 0
        · subst hj0
          rw [if_neg (by simp), if_neg (by omega)]
          exact ih (i+1) 0 (by omega) (by omega) (by omega) (by omega)
        · rw [if_pos hj0, lps_get? (show j - 1 < p.length by omega)]
          dsimp only
          have hle := spec_lps_le p (j-1)
          rw [if_neg (by omega)]
          exact ih i (spec_lps p (j-1)) (by omega) hin (by omega) (by omega)
    · rw [if_neg hi]
      rfl

/-- When the pattern is longer than the text, the KMP loop reaches the end
of the text without ever completing a match and returns `-1`. -/
lemma kmpLoop_notfound (text p : List Char) (hnm : text.length < p.length) : ∀ fuel i j,
    j ≤ i → i ≤ text.length →
    2 * (text.length - i) + j < fuel →
    kmpLoop text p (_longest_prefix_suffix p) fuel i j = some (-1) := by
  intro fuel
  induction fuel with
  | zero =>
    intro i j _ _ hf
    omega
  | succ fuel ih =>
    intro i j hji hin hf
    simp only [kmpLoop]
    by_cases hi : i < text.length
    · have hjm : j < p.length := by omega
      have hq : p[j]? = some (p.getD j 'A') := by
        rw [List.getElem?_eq_getElem hjm, List.getD_eq_getElem _ _ hjm]
      rw [if_pos hi, hq]
      dsimp only
      by_cases hc : p.getD j 'A' = text.getD i 'A'
      · rw [if_pos hc, if_neg (by omega)]
        exact ih (i+1) (j+1) (by omega) (by omega) (by omega)
      · rw [if_neg hc]
        by_cases hj0 : j = 0
        · subst hj0
          rw [if_neg (by simp), if_neg (by omega)]
          exact ih (i+1) 0 (by omega) (by omega) (by omega)
        · rw [if_pos hj0, lps_get? (show j - 1 < p.length by omega)]
          dsimp only
          have hle := spec_lps_le p (j-1)
          rw [if_neg (by omega)]
          exact ih i (spec_lps p (j-1)) (by omega) hin (by omega)
    · rw [if_neg hi]

/-! ### Brute force and Boyer-Moore: soundness of returned offsets -/

lemma slice_of_getD {text p : List Char} {i : Nat} (him : i + p.length ≤ text.length)
    (h : ∀ u, u < p.length → p.getD u 'A' = text.getD (i+u) 'A') :
    (text.drop i).take p.length = p := by
  refine List.ext_getElem ?_ ?_
  · rw [List.length_take, List.length_drop]
    omega
  · intro n h1 h2
    rw [List.getElem_take, List.getElem_drop]
    have hn : n < p.length := h2
    have he := h n hn
    rw [List.getD_eq_getElem _ _ hn, List.getD_eq_getElem _ _ (by omega)] at he
    exact he.symm

/-- The inner brute-force scan only moves `j` forward past positions where
pattern and text agree. -/
lemma bfInner_spec (text p : List Char) (i : Nat) : ∀ k j,
    j ≤ bfInner text p i k j
    ∧ ∀ u, j ≤ u → u < bfInner text p i k j → p.getD u 'A' = text.getD (i+u) 'A' := by
  intro k
  induction k with
  | zero =>
    intro j
    exact ⟨le_rfl, fun u h1 h2 => absurd (lt_of_le_of_lt h1 h2) (by simp [bfInner])⟩
  | succ k ih =>
    intro j
    simp only [bfInner]
    by_cases hc : p.getD j 'A' = text.getD (i+j) 'A'
    · rw [if_pos hc]
      obtain ⟨hle, hall⟩ := ih (j+1)
      refine ⟨by omega, ?_⟩
      intro u h1 h2
      rcases Nat.lt_or_ge u (j+1) with h' | h'
      · have : u = j := by omega
        subst this
        exact hc
      · exact hall u h' h2
    · rw [if_neg hc]
      exact ⟨le_rfl, fun u h1 h2 => by omega⟩

lemma bfOuter_sound (text p : List Char) : ∀ c i0 i, bfOuter text p c i0 = some i →
    i0 ≤ i ∧ i < i0 + c ∧ bfInner text p i p.length 0 = p.length := by
  intro c
  induction c with
  | zero =>
    intro i0 i hr
    exact absurd hr (by simp [bfOuter])
  | succ c ih =>
    intro i0 i hr
    simp only [bfOuter] at hr
    by_cases hc : bfInner text p i0 p.length 0 = p.length
    · rw [if_pos hc] at hr
      injection hr with hr
      subst hr
      exact ⟨le_rfl, by omega, hc⟩
    · rw [if_neg hc] at hr
      obtain ⟨h1, h2, h3⟩ := ih (i0+1) i hr
      exact ⟨by omega, by omega, h3⟩

/-- Soundness of the brute-force matcher: a returned offset other than `-1`
is a valid in-range match offset. -/
lemma bf_sound {text p : List Char} {v : Int} (hr : brute_force_matcher text p = v)
    (hv : v ≠ -1) :
    0 ≤ v ∧ v ≤ (text.length : Int) - (p.length : Int)
      ∧ (text.drop v.toNat).take p.length = p := by
  unfold brute_force_matcher at hr
  rcases ho : bfOuter text p (text.length + 1 - p.length) 0 with _ | i
  · rw [ho] at hr
    dsimp only at hr
    exact absurd hr.symm hv
  · rw [ho] at hr
    dsimp only at hr
    obtain ⟨h0, hlt, hfull⟩ := bfOuter_sound text p _ 0 i ho
    have him : i + p.length ≤ text.length := by omega
    obtain ⟨_, hall⟩ := bfInner_spec text p i p.length 0
    rw [hfull] at hall
    subst hr
    refine ⟨by positivity, by omega, ?_⟩
    rw [Int.toNat_natCast]
    exact slice_of_getD him (fun u hu => hall u (Nat.zero_le u) hu)

/-- A full right-to-left Boyer-Moore scan means every pattern position
agrees with the text (through Python indexing semantics). -/
lemma bmScan_match (text p : List Char) (s : Int) : ∀ k,
    bmScan text p s k = some 0 →
    ∀ t, t < k → pyChar text (s + t) = some (p.getD t 'A') := by
  intro k
  induction k with
  | zero =>
    intro _ t ht
    omega
  | succ k ih =>
    intro hr t ht
    simp only [bmScan] at hr
    rcases hc : pyChar text (s + k) with _ | c
    · rw [hc] at hr
      exact absurd hr (by simp)
    · rw [hc] at hr
      dsimp only at hr
      by_cases he : p.getD k 'A' = c
      · rw [if_pos he] at hr
        rcases Nat.lt_or_ge t k with h' | h'
        · exact ih hr t h'
        · have : t = k := by omega
          subst this
          rw [hc, he]
      · rw [if_neg he] at hr
        injection hr with hr
        omega

lemma pyChar_of_nonneg {text : List Char} {e : Int} (h0 : 0 ≤ e)
    (h1 : e < (text.length : Int)) :
    pyChar text e = some (text.getD e.toNat 'A') := by
  unfold pyChar pyIdx
  rw [if_pos ⟨h0, h1⟩]
  rfl

/-- Soundness of the Boyer-Moore loop for non-negative results: a returned
offset `v ≥ 0` is in range and the pattern occurs there. -/
lemma bmLoop_sound (text p : List Char) (bc : Char → Int) (gs : List Nat) : ∀ fuel s v,
    bmLoop text p bc gs fuel s = some v → 0 ≤ v →
    v ≤ (text.length : Int) - (p.length : Int)
      ∧ (text.drop v.toNat).take p.length = p := by
  intro fuel
  induction fuel with
  | zero =>
    intro s v hr _
    exact absurd hr (by simp [bmLoop])
  | succ fuel ih =>
    intro s v hr hv
    simp only [bmLoop] at hr
    by_cases hs : s ≤ (text.length : Int) - (p.length : Int)
    · rw [if_pos hs] at hr
      rcases hsc : bmScan text p s p.length with _ | k
      · rw [hsc] at hr
        exact absurd hr (by simp)
      · rw [hsc] at hr
        rcases k with _ | k
        · dsimp only at hr
          injection hr with hr
          subst hr
          refine ⟨hs, ?_⟩
          have hm := bmScan_match text p s p.length hsc
          have hsn : s.toNat + p.length ≤ text.length := by omega
          refine slice_of_getD hsn ?_
          intro u hu
          have h1 := hm u hu
          have h2 : (0:Int) ≤ s + u := by omega
          have h3 : s + (u:Int) < (text.length : Int) := by omega
          rw [pyChar_of_nonneg h2 h3] at h1
          injection h1 with h1
          rw [show (s + (u:Int)).toNat = s.toNat + u from by omega] at h1
          exact h1.symm
        · dsimp only at hr
          rcases hpc : pyChar text (s + k) with _ | c
          · rw [hpc] at hr
            exact absurd hr (by simp)
          · rw [hpc] at hr
            dsimp only at hr
            exact ih _ v hr hv
    · rw [if_neg hs] at hr
      injection hr with hr
      omega

/-- C5 (amended): a returned offset is a genuine in-range occurrence, for
brute force and KMP exactly as claimed (`i ≠ -1`); for Boyer-Moore only
under the extra hypothesis `0 ≤ i`, because the matcher can also return
spurious negative offsets such as `-2` (see the counterexample). -/
theorem C5_round_trip_amended :
    ∀ text p : List Char,
      (∀ v : Int, brute_force_matcher text p = v → v ≠ -1 →
        0 ≤ v ∧ v ≤ (text.length : Int) - (p.length : Int)
          ∧ (text.drop v.toNat).take p.length = p)
      ∧ (∀ v : Int, KMP_matcher text p = some v → v ≠ -1 →
        0 ≤ v ∧ v ≤ (text.length : Int) - (p.length : Int)
          ∧ (text.drop v.toNat).take p.length = p)
      ∧ (∀ v : Int, Boyer_Moore_matcher text p = some v → 0 ≤ v →
        v ≤ (text.length : Int) - (p.length : Int)
          ∧ (text.drop v.toNat).take p.length = p) := by
  intro text p
  refine ⟨fun v hr hv => bf_sound hr hv, ?_, ?_⟩
  · intro v hr hv
    rcases kmpLoop_sound text p _ 0 0 v (kmpInv_zero text p (Nat.zero_le _)) hr with h | h
    · exact absurd h hv
    · exact h
  · intro v hr hv
    unfold Boyer_Moore_matcher at hr
    by_cases hm : p.length = 0
    · rw [if_pos hm] at hr
      injection hr with hr
      subst hr
      have hp : p = [] := List.length_eq_zero.mp hm
      subst hp
      simp
    · rw [if_neg hm] at hr
      exact bmLoop_sound text p _ _ _ _ v hr hv

/-- Witness for C5: on text `"hi"` and pattern `"hi"` the brute-force
matcher returns `0`, which the theorem certifies as a valid offset. -/
theorem C5_round_trip_amended_w :
    0 ≤ (0:Int) ∧ (0:Int) ≤ (((['h','i'] : List Char).length : Int) -
      (((['h','i'] : List Char).length : Int)))
      ∧ ((['h','i'] : List Char).drop (0:Int).toNat).take (['h','i'] : List Char).length
        = ['h','i'] :=
  (C5_round_trip_amended ['h','i'] ['h','i']).1 0 (by decide) (by decide)

/-- C9: CONFIRMED.  Whenever the pattern is longer than the text, all
three matchers return `-1` (and, for KMP, the value `some (-1)` in
particular certifies that no index operation failed). -/
theorem C9_pattern_longer_than_text :
    ∀ text p : List Char, text.length < p.length →
      brute_force_matcher text p = -1
      ∧ KMP_matcher text p = some (-1)
      ∧ Boyer_Moore_matcher text p = some (-1) := by
  intro text p h
  refine ⟨?_, ?_, ?_⟩
  · unfold brute_force_matcher
    rw [show text.length + 1 - p.length = 0 from by omega]
    rfl
  · unfold KMP_matcher
    exact kmpLoop_notfound text p h _ 0 0 le_rfl (Nat.zero_le _) (by omega)
  · unfold Boyer_Moore_matcher
    rw [if_neg (by omega), show text.length + 2 = (text.length + 1) + 1 from rfl]
    simp only [bmLoop]
    rw [if_neg (by omega)]

/-- Witness for C9 at `text = ""`, `pattern = "a"`. -/
theorem C9_pattern_longer_than_text_w :
    brute_force_matcher [] ['a'] = -1
    ∧ KMP_matcher [] ['a'] = some (-1)
    ∧ Boyer_Moore_matcher [] ['a'] = some (-1) :=
  C9_pattern_longer_than_text [] ['a'] (by decide)

/-- C10: CONFIRMED.  For a non-empty pattern the KMP loop always produces
a value: in the embedding `none` arises exactly when `pattern[j]` or
`lps_array[j-1]` is taken out of range or the fuel (which dominates the
loop measure `2*(n - i) + j`) runs out, so `isSome` certifies that every
index operation succeeds and the loop terminates. -/
theorem C10_kmp_indexing_safe :
    ∀ text p : List Char, p ≠ [] → (KMP_matcher text p).isSome = true := by
  intro text p hp
  unfold KMP_matcher
  exact kmpLoop_total text p _ 0 0 le_rfl (Nat.zero_le _)
    (List.length_pos.mpr hp) (by omega)

/-- Witness for C10 at `text = "a"`, `pattern = "a"`. -/
theorem C10_kmp_indexing_safe_w :
    (KMP_matcher ['a'] ['a']).isSome = true :=
  C10_kmp_indexing_safe ['a'] ['a'] (by decide)

/-! ### Good-suffix first pass: greedy scan vs declarative run length -/

/-- The greedy first-pass scan computes exactly the declarative run length
`gs_run`: entering with counter `k` (so `i + 1 - k` comparisons have
already succeeded), the final counter is `(i+1) - gs_run p i`. -/
lemma gsScan_run (p : List Char) (i : Nat) : ∀ k, k ≤ i + 1 →
    (∀ t, t < i + 1 - k → gs_cmp p i t) →
    gsScan p i k = (i + 1) - gs_run p i := by
  intro k
  induction k with
  | zero =>
    intro _ hall
    have hP : ∀ t, t < i + 1 → gs_cmp p i t := fun t ht => hall t (by omega)
    have h1 : i + 1 ≤ gs_run p i := by
      unfold gs_run
      exact @Nat.le_findGreatest (i+1) (fun k => ∀ t, t < k → gs_cmp p i t) _ (i+1)
        le_rfl hP
    simp only [gsScan]
    omega
  | succ k ih =>
    intro hk hall
    simp only [gsScan]
    have hidx : gs_cmp p i (i - k) ↔
        p.getD k 'A' = pyWrap p ((k : Int) - p.length + i + 1) := by
      unfold gs_cmp
      have h1 : i - (i - k) = k := by omega
      have h2 : ((i : Int) - ((i - k : Nat) : Int)) = (k : Int) := by omega
      rw [h1, h2]
    by_cases hc : p.getD k 'A' = pyWrap p ((k : Int) - p.length + i + 1)
    · rw [if_pos hc]
      refine ih (by omega) ?_
      intro t ht
      rcases Nat.lt_or_ge t (i + 1 - (k+1)) with h' | h'
      · exact hall t h'
      · have : t = i - k := by omega
        subst this
        exact hidx.mpr hc
    · rw [if_neg hc]
      have hub : gs_run p i ≤ i - k := by
        by_contra hgt
        have h2 : gs_run p i ≤ i + 1 := Nat.findGreatest_le (i+1)
        have hPr : ∀ t, t < gs_run p i → gs_cmp p i t := by
          unfold gs_run
          exact @Nat.findGreatest_spec 0 (fun k => ∀ t, t < k → gs_cmp p i t) _ (i+1)
            (Nat.zero_le _) (fun t ht => absurd ht (by omega))
        exact hc (hidx.mp (hPr (i - k) (by omega)))
      have hlb : i - k ≤ gs_run p i := by
        unfold gs_run
        exact @Nat.le_findGreatest (i - k) (fun k => ∀ t, t < k → gs_cmp p i t) _ (i+1)
          (by omega) (fun t ht => hall t (by omega))
      omega

lemma gs_run_le (p : List Char) (i : Nat) : gs_run p i ≤ i + 1 := by
  unfold gs_run
  exact Nat.findGreatest_le (i+1)

lemma foldl_set_length (f : Nat → Nat) : ∀ (l : List Nat) (acc : List Nat),
    (l.foldl (fun b i => b.set (f i) i) acc).length = acc.length := by
  intro l
  induction l with
  | nil =>
    intro acc
    rfl
  | cons a l ih =>
    intro acc
    simp only [List.foldl_cons]
    rw [ih]
    simp

/-- C6 (amended): `_good_suffix_heuristic` returns the borders array of
length `m+1` built by the second pass (`borders[m - suffixes[i]] = i`
starting from all zeros) from the `suffixes` array whose entry `m-i-1` is
`gs_run p i`: the length of the longest run of successful comparisons
`pattern[i-t] == pattern[(i-t) - m + i + 1]` (with Python wrap-around on
the right index) — not the spec's "longest suffix of `pattern[0..=i]` that
equals a suffix of the full pattern", which differs (see the
counterexample `"aab"`). -/
theorem C6_gs_table_amended :
    ∀ p : List Char,
      _good_suffix_heuristic p
        = gsBorders p ((List.range p.length).map fun t => gs_run p (p.length - 1 - t))
      ∧ (_good_suffix_heuristic p).length = p.length + 1 := by
  intro p
  constructor
  · unfold _good_suffix_heuristic
    congr 1
    unfold gsSuffixes
    apply List.map_congr_left
    intro t ht
    rw [List.mem_range] at ht
    have hi : p.length - 1 - t + 1 = p.length - t := by omega
    have hs := gsScan_run p (p.length - 1 - t) (p.length - t) (by omega)
      (fun u hu => absurd hu (by omega))
    rw [hs, hi]
    have hle := gs_run_le p (p.length - 1 - t)
    omega
  · unfold _good_suffix_heuristic gsBorders
    rw [foldl_set_length (fun i => p.length - (gsSuffixes p).getD i 0)]
    simp

/-- Bounds on every access pair recorded by the first-pass scan at end
position `i < m`, entered with counter `k ≤ i + 1`. -/
lemma gsScanAcc_bounds {p : List Char} {i : Nat} (hi : i < p.length) : ∀ k, k ≤ i + 1 →
    ∀ pr : Int × Int, pr ∈ gsScanAcc p i k →
      0 ≤ pr.1 ∧ pr.1 < (p.length : Int)
        ∧ -(p.length : Int) < pr.2 ∧ pr.2 < (p.length : Int) := by
  intro k
  induction k with
  | zero =>
    intro _ pr hpr
    simp [gsScanAcc] at hpr
  | succ k ih =>
    intro hk pr hpr
    simp only [gsScanAcc] at hpr
    rcases List.mem_cons.mp hpr with h | h
    · subst h
      refine ⟨by positivity, ?_, ?_, ?_⟩ <;> simp only [] <;> omega
    · by_cases hc : p.getD k 'A' = pyWrap p ((k : Int) - p.length + i + 1)
      · rw [if_pos hc] at h
        exact ih (by omega) pr h
      · rw [if_neg hc] at h
        simp at h

/-- C7 (amended): every pattern access of the first pass of
`_good_suffix_heuristic` has its left index `j` in `[0, m)` and its right
index `j - m + i + 1` in the open interval `(-m, m)`: all accesses are
Python-safe (negative ones wrap around instead of raising `IndexError`),
but the right index can be negative, contrary to the claim `0 ≤ index`. -/
theorem C7_gs_access_bounds_amended :
    ∀ (p : List Char) (pr : Int × Int), pr ∈ gsAccesses p →
      0 ≤ pr.1 ∧ pr.1 < (p.length : Int)
        ∧ -(p.length : Int) < pr.2 ∧ pr.2 < (p.length : Int) := by
  intro p pr hpr
  unfold gsAccesses at hpr
  rw [List.mem_flatten] at hpr
  obtain ⟨l, hl, hprl⟩ := hpr
  rw [List.mem_map] at hl
  obtain ⟨t, ht, hlt⟩ := hl
  rw [List.mem_range] at ht
  subst hlt
  exact gsScanAcc_bounds (show p.length - 1 - t < p.length by omega)
    (p.length - t) (by omega) pr hprl

/-- Witness for C7 (amended) at pattern `"ab"` and the recorded access
pair `(1, 1)`. -/
theorem C7_gs_access_bounds_amended_w :
    0 ≤ ((1:Int), (1:Int)).1 ∧ ((1:Int), (1:Int)).1 < ((['a','b'] : List Char).length : Int)
      ∧ -((['a','b'] : List Char).length : Int) < ((1:Int), (1:Int)).2
      ∧ ((1:Int), (1:Int)).2 < ((['a','b'] : List Char).length : Int) :=
  C7_gs_access_bounds_amended ['a','b'] ((1:Int), (1:Int)) (by decide)
